import Mathlib

/-!
Verification development for the LogosLab forward-chaining reasoning engine.

The definitions below are a shallow embedding of the C++ core:
`Proposition.cpp` (three-valued logic and the proposition record),
`Expression.cpp` (the token-stream and legacy expression evaluators),
`InferenceEngine.cpp` (the fixed-point solver `deduceAll`) and the
inference tracer of `Ratiocinator`.  The C++ `unordered_map` knowledge
base is modelled as an association list iterated in insertion order
(the C++ iteration order is unspecified; every other aspect of the map
semantics — first-match lookup, in-place update through a pointer,
auto-creation via `operator[]` appending a default-constructed entry —
is preserved).  C++ exceptions thrown by the evaluator are modelled with
`Except`.  Wall-clock timestamps and the float confidence field of
provenance records are outside the embedding and are omitted from the
records; no claim refers to them.
-/

namespace LogosLab

/-- Models `enum class Tripartite { TRUE, FALSE, UNKNOWN }` from Proposition.h. -/
inductive Tripartite where
  | TRUE
  | FALSE
  | UNKNOWN
deriving DecidableEq

/-- Models `enum class LogicalOperator` from Proposition.h. -/
inductive LogicalOperator where
  | NONE
  | AND
  | OR
  | NOT
  | IMPLIES
  | EQUIVALENT
  | LPAREN
  | RPAREN
deriving DecidableEq

/-- Models `enum class Quantifier` from Proposition.h. -/
inductive Quantifier where
  | UNIVERSAL_AFFIRMATIVE
  | UNIVERSAL_NEGATIVE
  | PARTICULAR_AFFIRMATIVE
  | PARTICULAR_NEGATIVE
  | NONE
deriving DecidableEq

/-- Tripartite `operator&&` (Kleene AND) from Proposition.cpp. -/
def tAnd (left right : Tripartite) : Tripartite :=
  if left = Tripartite.FALSE ∨ right = Tripartite.FALSE then Tripartite.FALSE
  else if left = Tripartite.UNKNOWN ∨ right = Tripartite.UNKNOWN then Tripartite.UNKNOWN
  else Tripartite.TRUE

/-- Tripartite `operator||` (Kleene OR) from Proposition.cpp. -/
def tOr (left right : Tripartite) : Tripartite :=
  if left = Tripartite.TRUE ∨ right = Tripartite.TRUE then Tripartite.TRUE
  else if left = Tripartite.UNKNOWN ∨ right = Tripartite.UNKNOWN then Tripartite.UNKNOWN
  else Tripartite.FALSE

/-- Tripartite `operator!` (Kleene NOT) from Proposition.cpp. -/
def tNot (value : Tripartite) : Tripartite :=
  match value with
  | Tripartite.TRUE => Tripartite.FALSE
  | Tripartite.FALSE => Tripartite.TRUE
  | Tripartite.UNKNOWN => Tripartite.UNKNOWN

/-- The free function `implies` on Tripartite from Proposition.cpp. -/
def timplies (left right : Tripartite) : Tripartite :=
  if left = Tripartite.FALSE ∨ right = Tripartite.TRUE then Tripartite.TRUE
  else if left = Tripartite.TRUE ∧ right = Tripartite.FALSE then Tripartite.FALSE
  else Tripartite.UNKNOWN

/-- Models `InferenceProvenance` from Proposition.h (rule name and premise list;
the wall-clock timestamp and float confidence are omitted, see header). -/
structure InferenceProvenance where
  ruleFired : String := ""
  premises : List String := []
deriving DecidableEq

/-- Models `Conflict` from Proposition.h (timestamp omitted, see header). -/
structure Conflict where
  oldValue : Tripartite
  newValue : Tripartite
  oldProvenance : InferenceProvenance
  newProvenance : InferenceProvenance
deriving DecidableEq

/-- Models `class Proposition` from Proposition.h.  The defaults are those of the
default constructor in Proposition.cpp.  The C++ field `prefix` is named
`prefixName` here (`prefix` is not a usable identifier in Lean). -/
structure Proposition where
  prefixName : String := ""
  relation : LogicalOperator := LogicalOperator.NONE
  antecedent : String := ""
  antecedentAssertion : Tripartite := Tripartite.UNKNOWN
  subject : String := ""
  consequent : String := ""
  consequentAssertion : Tripartite := Tripartite.UNKNOWN
  predicate : String := ""
  truth_value : Tripartite := Tripartite.UNKNOWN
  proposition_scope : Quantifier := Quantifier.NONE
  provenance : Option InferenceProvenance := none
  conflicts : List Conflict := []
deriving DecidableEq

instance : Inhabited Proposition := ⟨{}⟩

/-- Models `Proposition::setTruthValue(Tripartite)` — the provenance-free setter:
sets the value and clears the provenance. -/
def Proposition.setTruthValue (p : Proposition) (valueToSet : Tripartite) : Proposition :=
  { p with truth_value := valueToSet, provenance := none }

/-- Models `Proposition::setTruthValue(Tripartite, const InferenceProvenance&)` —
records a conflict when a definite value is overwritten by a different one,
then sets value and provenance unconditionally. -/
def Proposition.setTruthValueProv (p : Proposition) (valueToSet : Tripartite)
    (prov : InferenceProvenance) : Proposition :=
  let p' :=
    if p.truth_value ≠ Tripartite.UNKNOWN ∧ p.truth_value ≠ valueToSet then
      { p with conflicts :=
          p.conflicts ++ [⟨p.truth_value, valueToSet, p.provenance.getD {}, prov⟩] }
    else p
  { p' with truth_value := valueToSet, provenance := some prov }

/-- The knowledge base: `std::unordered_map<std::string, Proposition>`,
modelled as an association list in insertion order. -/
abbrev KnowledgeBase : Type := List (String × Proposition)

/-- Models `InferenceEngine::findProposition` — `find` returning the entry or null. -/
def findProposition (props : KnowledgeBase) (name : String) : Option Proposition :=
  (List.find? (fun pr => pr.1 = name) props).map Prod.snd

/-- The recurring C++ pattern `p ? p->getTruthValue() : Tripartite::UNKNOWN`. -/
def truthValueOf (props : KnowledgeBase) (name : String) : Tripartite :=
  match findProposition props name with
  | some p => p.truth_value
  | none => Tripartite.UNKNOWN

/-- In-place mutation through the pointer returned by `findProposition`:
rewrites the first entry whose key matches. -/
def updateProp (props : KnowledgeBase) (name : String)
    (f : Proposition → Proposition) : KnowledgeBase :=
  match props with
  | [] => []
  | pr :: rest =>
    if pr.1 = name then (pr.1, f pr.2) :: rest
    else pr :: updateProp rest name f

/-- The engine's write pattern: mutate through the pointer when the entry
exists, otherwise `propositions[name]` default-constructs the entry (the
association list appends it) and the setter runs on the fresh entry. -/
def derivePropAt (props : KnowledgeBase) (name : String) (v : Tripartite)
    (prov : InferenceProvenance) : KnowledgeBase :=
  match findProposition props name with
  | some _ => updateProp props name (fun p => p.setTruthValueProv v prov)
  | none => props ++ [(name, Proposition.setTruthValueProv {} v prov)]

/-- Models `InferenceEngine::applyModusPonens`. -/
def applyModusPonens (implication : Proposition) (props : KnowledgeBase) :
    KnowledgeBase × Bool :=
  let antecedentName := implication.antecedent
  let consequentName := implication.consequent
  let antecedentTruth := truthValueOf props antecedentName
  let consequentTruth := truthValueOf props consequentName
  if antecedentTruth = Tripartite.TRUE ∧ consequentTruth ≠ Tripartite.TRUE then
    (derivePropAt props consequentName Tripartite.TRUE
      ⟨"ModusPonens", [antecedentName, implication.prefixName]⟩, true)
  else (props, false)

/-- Models `InferenceEngine::applyModusTollens`. -/
def applyModusTollens (implication : Proposition) (props : KnowledgeBase) :
    KnowledgeBase × Bool :=
  let antecedentName := implication.antecedent
  let consequentName := implication.consequent
  let antecedentTruth := truthValueOf props antecedentName
  let consequentTruth := truthValueOf props consequentName
  if consequentTruth = Tripartite.FALSE ∧ antecedentTruth ≠ Tripartite.FALSE then
    (derivePropAt props antecedentName Tripartite.FALSE
      ⟨"ModusTollens", [consequentName, implication.prefixName]⟩, true)
  else (props, false)

/-- Models `InferenceEngine::applyHypotheticalSyllogism`.  The two guard truth
values are read before either branch fires, exactly as in the C++. -/
def applyHypotheticalSyllogism (impl1 impl2 : Proposition)
    (props : KnowledgeBase) : KnowledgeBase × Bool :=
  if impl1.consequent ≠ impl2.antecedent then (props, false)
  else
    let P := impl1.antecedent
    let R := impl2.consequent
    let pTruth := truthValueOf props P
    let rTruth := truthValueOf props R
    let fwd :=
      if pTruth = Tripartite.TRUE ∧ rTruth ≠ Tripartite.TRUE then
        (derivePropAt props R Tripartite.TRUE
          ⟨"HypotheticalSyllogism", [P, impl1.prefixName, impl2.prefixName]⟩, true)
      else (props, false)
    let bwd :=
      if rTruth = Tripartite.FALSE ∧ pTruth ≠ Tripartite.FALSE then
        (derivePropAt fwd.1 P Tripartite.FALSE
          ⟨"HypotheticalSyllogism", [R, impl2.prefixName, impl1.prefixName]⟩, true)
      else (fwd.1, false)
    (bwd.1, fwd.2 || bwd.2)

/-- Models `InferenceEngine::applyDisjunctiveSyllogism`.  Both guard truth values
are read before either case fires, as in the C++. -/
def applyDisjunctiveSyllogism (disjunction : Proposition)
    (props : KnowledgeBase) : KnowledgeBase × Bool :=
  let leftDisjunct := disjunction.antecedent
  let rightDisjunct := disjunction.consequent
  let leftTruth := truthValueOf props leftDisjunct
  let rightTruth := truthValueOf props rightDisjunct
  let case1 :=
    if leftTruth = Tripartite.FALSE ∧ rightTruth ≠ Tripartite.TRUE then
      (derivePropAt props rightDisjunct Tripartite.TRUE
        ⟨"DisjunctiveSyllogism", [leftDisjunct, disjunction.prefixName]⟩, true)
    else (props, false)
  let case2 :=
    if rightTruth = Tripartite.FALSE ∧ leftTruth ≠ Tripartite.TRUE then
      (derivePropAt case1.1 leftDisjunct Tripartite.TRUE
        ⟨"DisjunctiveSyllogism", [rightDisjunct, disjunction.prefixName]⟩, true)
    else (case1.1, false)
  (case2.1, case1.2 || case2.2)

/-- Models `InferenceEngine::isNegatedName`: the name starts with `~` or `!`. -/
def isNegatedName (name : String) : Bool :=
  match name.data with
  | [] => false
  | c :: _ => c = '~' ∨ c = '!'

/-- Models `InferenceEngine::getBaseName`: strip one leading negation prefix. -/
def getBaseName (name : String) : String :=
  if isNegatedName name then name.drop 1 else name

/-- The `tryResolve` lambda inside `InferenceEngine::applyResolution`. -/
def tryResolve (lit1 other1 lit2 other2 : String) (disj1 disj2 : Proposition)
    (props : KnowledgeBase) : KnowledgeBase × Bool :=
  if getBaseName lit1 = getBaseName lit2 ∧ isNegatedName lit1 ≠ isNegatedName lit2 then
    let other1Truth := truthValueOf props other1
    let other2Truth := truthValueOf props other2
    if other1Truth = Tripartite.FALSE ∧ other2Truth ≠ Tripartite.TRUE then
      (derivePropAt props other2 Tripartite.TRUE
        ⟨"Resolution", [disj1.prefixName, disj2.prefixName, other1]⟩, true)
    else if other2Truth = Tripartite.FALSE ∧ other1Truth ≠ Tripartite.TRUE then
      (derivePropAt props other1 Tripartite.TRUE
        ⟨"Resolution", [disj1.prefixName, disj2.prefixName, other2]⟩, true)
    else (props, false)
  else (props, false)

/-- Models `InferenceEngine::applyResolution`: the four combinations are tried in
sequence, threading the knowledge base. -/
def applyResolution (disj1 disj2 : Proposition) (props : KnowledgeBase) :
    KnowledgeBase × Bool :=
  let r1 := tryResolve disj1.antecedent disj1.consequent disj2.antecedent disj2.consequent
      disj1 disj2 props
  let r2 := tryResolve disj1.antecedent disj1.consequent disj2.consequent disj2.antecedent
      disj1 disj2 r1.1
  let r3 := tryResolve disj1.consequent disj1.antecedent disj2.antecedent disj2.consequent
      disj1 disj2 r2.1
  let r4 := tryResolve disj1.consequent disj1.antecedent disj2.consequent disj2.antecedent
      disj1 disj2 r3.1
  (r4.1, r1.2 || r2.2 || r3.2 || r4.2)

/-! ## Expression evaluator (Expression.cpp) -/

/-- Models `struct Token` from the Expression header: an operand carrying a
by-value copy of the proposition, or a structural operator.  The C++
"isOperand boolean plus two overlapping fields" record is rendered as the
equivalent closed sum. -/
inductive Token where
  | operand (prop : Proposition)
  | oper (op : LogicalOperator)
deriving DecidableEq

/-- The evaluator's exceptions: `std::runtime_error("Insufficient
operands...")`, `std::runtime_error("...unbalanced...")` /
`"too many operands"`, and `std::invalid_argument("Invalid ... operator.")`. -/
inductive EvalError where
  | insufficientOperands
  | unbalanced
  | invalidOperator
deriving DecidableEq

/-- The precedence table built by `Expression::initializePrecedence`;
`precedence[op]` on a `std::map` yields 0 for operators never inserted. -/
def precedence (op : LogicalOperator) : Nat :=
  match op with
  | LogicalOperator.NOT => 3
  | LogicalOperator.AND => 2
  | LogicalOperator.OR => 1
  | LogicalOperator.IMPLIES => 0
  | LogicalOperator.EQUIVALENT => 0
  | _ => 0

/-- Models `Expression::isUnaryOperator`. -/
def isUnaryOperator (op : LogicalOperator) : Bool :=
  op = LogicalOperator.NOT

/-- Models `Expression::isLeftParen`. -/
def isLeftParen (op : LogicalOperator) : Bool :=
  op = LogicalOperator.LPAREN

/-- Models `Expression::isRightParen`. -/
def isRightParen (op : LogicalOperator) : Bool :=
  op = LogicalOperator.RPAREN

/-- Models `Expression::applyUnaryOperator` (throws on a non-unary operator). -/
def applyUnaryOperator (value : Tripartite) (op : LogicalOperator) :
    Except EvalError Tripartite :=
  match op with
  | LogicalOperator.NOT => Except.ok (tNot value)
  | _ => Except.error EvalError.invalidOperator

/-- Models `Expression::applyBinaryOperator` (throws on a non-binary operator). -/
def applyBinaryOperator (left right : Tripartite) (op : LogicalOperator) :
    Except EvalError Tripartite :=
  match op with
  | LogicalOperator.AND => Except.ok (tAnd left right)
  | LogicalOperator.OR => Except.ok (tOr left right)
  | LogicalOperator.IMPLIES => Except.ok (timplies left right)
  | LogicalOperator.EQUIVALENT =>
    Except.ok (if timplies left right = Tripartite.TRUE ∧
                  timplies right left = Tripartite.TRUE
               then Tripartite.TRUE else Tripartite.FALSE)
  | _ => Except.error EvalError.invalidOperator

/-- One call of the `applyOperator` lambda in
`Expression::evaluateTokenStream`, given the popped operator: pop the
needed operand(s) from the value stack and push the result.  (Stacks are
lists with the head as top.) -/
def applyOp1 (op : LogicalOperator) (vals : List Tripartite) :
    Except EvalError (List Tripartite) :=
  if isUnaryOperator op then
    match vals with
    | [] => Except.error EvalError.insufficientOperands
    | v :: vs => (applyUnaryOperator v op).map (· :: vs)
  else
    match vals with
    | right :: left :: vs => (applyBinaryOperator left right op).map (· :: vs)
    | _ => Except.error EvalError.insufficientOperands

/-- The loop "after an operand, apply any pending unary operators":
`while (!opStack.empty() && isUnaryOperator(opStack.top())) applyOperator()`. -/
def applyPendingUnary : List LogicalOperator → List Tripartite →
    Except EvalError (List LogicalOperator × List Tripartite)
  | [], vals => Except.ok ([], vals)
  | op :: rest, vals =>
    if isUnaryOperator op then do
      let vals' ← applyOp1 op vals
      applyPendingUnary rest vals'
    else Except.ok (op :: rest, vals)

/-- The loop on a right parenthesis:
`while (!opStack.empty() && !isLeftParen(opStack.top())) applyOperator()`. -/
def popUntilLParen : List LogicalOperator → List Tripartite →
    Except EvalError (List LogicalOperator × List Tripartite)
  | [], vals => Except.ok ([], vals)
  | op :: rest, vals =>
    if isLeftParen op then Except.ok (op :: rest, vals)
    else do
      let vals' ← applyOp1 op vals
      popUntilLParen rest vals'

/-- The loop on a binary operator token: pop and apply stacked operators of
higher or equal precedence, stopping at a parenthesis barrier or a unary
operator. -/
def popWhileHigherPrec (cur : LogicalOperator) : List LogicalOperator →
    List Tripartite → Except EvalError (List LogicalOperator × List Tripartite)
  | [], vals => Except.ok ([], vals)
  | op :: rest, vals =>
    if ¬isLeftParen op ∧ ¬isUnaryOperator op ∧ precedence cur ≤ precedence op then do
      let vals' ← applyOp1 op vals
      popWhileHigherPrec cur rest vals'
    else Except.ok (op :: rest, vals)

/-- The final flush of `evaluateTokenStream`: apply remaining operators,
skipping unmatched parentheses. -/
def flushRemaining : List LogicalOperator → List Tripartite →
    Except EvalError (List Tripartite)
  | [], vals => Except.ok vals
  | op :: rest, vals =>
    if ¬isLeftParen op ∧ ¬isRightParen op then do
      let vals' ← applyOp1 op vals
      flushRemaining rest vals'
    else flushRemaining rest vals

/-- The "pop the left parenthesis" snippet of the right-parenthesis
branch: discard the top of the operator stack when it is the matching
LPAREN. -/
def dropLParenTop (ops : List LogicalOperator) : List LogicalOperator :=
  match ops with
  | top :: below => if isLeftParen top then below else top :: below
  | [] => []

/-- The token loop of `Expression::evaluateTokenStream`, carrying the
operator stack and value stack. -/
def evalTokensGo : List Token → List LogicalOperator → List Tripartite →
    Except EvalError Tripartite
  | [], opStack, valueStack => do
    let vals ← flushRemaining opStack valueStack
    match vals with
    | [v] => Except.ok v
    | [] => Except.ok Tripartite.UNKNOWN
    | _ => Except.error EvalError.unbalanced
  | Token.operand prop :: rest, opStack, valueStack => do
    let st ← applyPendingUnary opStack (prop.truth_value :: valueStack)
    evalTokensGo rest st.1 st.2
  | Token.oper op :: rest, opStack, valueStack =>
    if isLeftParen op then
      evalTokensGo rest (op :: opStack) valueStack
    else if isRightParen op then do
      let st ← popUntilLParen opStack valueStack
      let st2 ← applyPendingUnary (dropLParenTop st.1) st.2
      evalTokensGo rest st2.1 st2.2
    else if isUnaryOperator op then
      evalTokensGo rest (op :: opStack) valueStack
    else do
      let st ← popWhileHigherPrec op opStack valueStack
      evalTokensGo rest (op :: st.1) st.2

/-- Models `Expression::evaluateTokenStream`. -/
def evaluateTokenStream (tokens : List Token) : Except EvalError Tripartite :=
  evalTokensGo tokens [] []

/-! Legacy evaluation path (`convertToPostfix` / `evaluatePostfix`),
exercised when an expression was built through `addOperand`/`addOperator`
rather than the token API. -/

/-- State of `Expression::convertToPostfix`: operator stack, next operand
index, the "needs operand" flag, and the two output queues (rear = list
end). -/
structure PostfixState where
  opStack : List LogicalOperator
  operandIndex : Nat
  needsOperand : Bool
  postfixQueue : List Tripartite
  opQueue : List LogicalOperator
deriving DecidableEq

/-- Drain unary operators from the top of the operator stack into the
operator queue (the "apply any pending unary operators" loops of
`convertToPostfix`). -/
def drainUnary : List LogicalOperator → List LogicalOperator →
    List LogicalOperator × List LogicalOperator
  | [], opQueue => ([], opQueue)
  | op :: rest, opQueue =>
    if isUnaryOperator op then drainUnary rest (opQueue ++ [op])
    else (op :: rest, opQueue)

/-- The `pushOperand` lambda of `convertToPostfix`. -/
def pushOperand (operands : List Proposition) (st : PostfixState) : PostfixState :=
  if st.operandIndex < operands.length then
    let v := (operands.getD st.operandIndex {}).truth_value
    let drained := drainUnary st.opStack st.opQueue
    { st with
      postfixQueue := st.postfixQueue ++ [v]
      operandIndex := st.operandIndex + 1
      opStack := drained.1
      opQueue := drained.2
      needsOperand := false }
  else st

/-- The right-parenthesis drain of `convertToPostfix`: pop to the matching
left parenthesis, forwarding binary operators and discarding unary ones. -/
def popParenGroup : List LogicalOperator → List LogicalOperator →
    List LogicalOperator × List LogicalOperator
  | [], opQueue => ([], opQueue)
  | op :: rest, opQueue =>
    if isLeftParen op then (op :: rest, opQueue)
    else if isUnaryOperator op then popParenGroup rest opQueue
    else popParenGroup rest (opQueue ++ [op])

/-- The precedence drain of `convertToPostfix` on a binary operator. -/
def popHigherPrecQueue (cur : LogicalOperator) : List LogicalOperator →
    List LogicalOperator → List LogicalOperator × List LogicalOperator
  | [], opQueue => ([], opQueue)
  | op :: rest, opQueue =>
    if ¬isLeftParen op ∧ ¬isUnaryOperator op ∧ precedence cur ≤ precedence op then
      popHigherPrecQueue cur rest (opQueue ++ [op])
    else (op :: rest, opQueue)

/-- One iteration of the operator loop of `convertToPostfix`. -/
def convertStep (operands : List Proposition) (st : PostfixState)
    (currentOp : LogicalOperator) : PostfixState :=
  if isLeftParen currentOp then
    { st with opStack := currentOp :: st.opStack, needsOperand := true }
  else if isRightParen currentOp then
    let st1 := if st.needsOperand then pushOperand operands st else st
    let popped := popParenGroup st1.opStack st1.opQueue
    let afterLParen :=
      match popped.1 with
      | top :: below => if isLeftParen top then below else top :: below
      | [] => []
    let drained := drainUnary afterLParen popped.2
    { st1 with opStack := drained.1, opQueue := drained.2, needsOperand := false }
  else if isUnaryOperator currentOp then
    { st with opStack := currentOp :: st.opStack }
  else
    let st1 := if st.needsOperand then pushOperand operands st else st
    let popped := popHigherPrecQueue currentOp st1.opStack st1.opQueue
    { st1 with opStack := currentOp :: popped.1, opQueue := popped.2,
               needsOperand := true }

/-- The trailing-operand loop of `convertToPostfix` ("push remaining
operands"), recursing on the count of operands still unconsumed. -/
def pushRemainingOperands (operands : List Proposition) :
    Nat → PostfixState → PostfixState
  | 0, st => st
  | n + 1, st =>
    if st.operandIndex < operands.length then
      let v := (operands.getD st.operandIndex {}).truth_value
      let drained := drainUnary st.opStack st.opQueue
      pushRemainingOperands operands n
        { st with
          postfixQueue := st.postfixQueue ++ [v]
          operandIndex := st.operandIndex + 1
          opStack := drained.1
          opQueue := drained.2 }
    else st

/-- The final stack flush of `convertToPostfix` (skips parentheses). -/
def flushOpStackToQueue : List LogicalOperator → List LogicalOperator →
    List LogicalOperator
  | [], opQueue => opQueue
  | op :: rest, opQueue =>
    if ¬isLeftParen op ∧ ¬isRightParen op then
      flushOpStackToQueue rest (opQueue ++ [op])
    else flushOpStackToQueue rest opQueue

/-- Models `Expression::convertToPostfix`: returns the operand queue and the
operator queue. -/
def convertToPostfixQueues (operands : List Proposition)
    (operators : List LogicalOperator) : List Tripartite × List LogicalOperator :=
  let st0 : PostfixState := ⟨[], 0, true, [], []⟩
  let st1 := operators.foldl (convertStep operands) st0
  let st2 := pushRemainingOperands operands operands.length st1
  (st2.postfixQueue, flushOpStackToQueue st2.opStack st2.opQueue)

/-- The operator loop of `Expression::evaluatePostfixQueues` (pop operands
from the evaluation stack and push results). -/
def evalPostfixOps : List LogicalOperator → List Tripartite →
    Except EvalError (List Tripartite)
  | [], evalStack => Except.ok evalStack
  | op :: rest, evalStack =>
    if isUnaryOperator op then
      match evalStack with
      | [] => Except.error EvalError.insufficientOperands
      | v :: vs => do
        let r ← applyUnaryOperator v op
        evalPostfixOps rest (r :: vs)
    else
      match evalStack with
      | right :: left :: vs => do
        let r ← applyBinaryOperator left right op
        evalPostfixOps rest (r :: vs)
      | _ => Except.error EvalError.insufficientOperands

/-- Models `Expression::evaluatePostfix`: the operand queue is pushed front-to-back
onto the evaluation stack (so the stack is the reversed queue), then the
operator queue is processed in order; exactly one value must remain. -/
def evaluatePostfixQueues (postfixQueue : List Tripartite)
    (opQueue : List LogicalOperator) : Except EvalError Tripartite := do
  let final ← evalPostfixOps opQueue postfixQueue.reverse
  match final with
  | [v] => Except.ok v
  | _ => Except.error EvalError.unbalanced

/-- Models `class Expression` from the Expression header: the unified token
stream, the legacy operand/operator lists, the evaluation cache, the
target name (`prefix` in C++, `prefixName` here) and the API-selection
flag.  The constant precedence map is the function `precedence`. -/
structure Expression where
  tokens : List Token := []
  operands : List Proposition := []
  operators : List LogicalOperator := []
  evaluatedValue : Tripartite := Tripartite.UNKNOWN
  isEvaluated : Bool := false
  prefixName : String := ""
  useTokenStream : Bool := false
deriving DecidableEq

/-- Models `Expression::addToken(const Proposition&)`: stores a by-value snapshot
of the proposition and switches to the token API. -/
def Expression.addTokenProp (e : Expression) (prop : Proposition) : Expression :=
  { e with tokens := e.tokens ++ [Token.operand prop], useTokenStream := true }

/-- Models `Expression::addToken(LogicalOperator)`. -/
def Expression.addTokenOp (e : Expression) (op : LogicalOperator) : Expression :=
  { e with tokens := e.tokens ++ [Token.oper op], useTokenStream := true }

/-- Models `Expression::evaluate`: returns the cached value when already
evaluated; otherwise runs the token-stream or legacy evaluation (an empty
stream yields UNKNOWN without error) and caches the result.  The mutation
of the cache is modelled by returning the updated expression. -/
def Expression.evaluate (e : Expression) : Except EvalError (Tripartite × Expression) :=
  if e.isEvaluated then Except.ok (e.evaluatedValue, e)
  else if e.useTokenStream then
    if e.tokens.isEmpty then
      Except.ok (Tripartite.UNKNOWN,
        { e with evaluatedValue := Tripartite.UNKNOWN, isEvaluated := true })
    else
      (evaluateTokenStream e.tokens).map fun v =>
        (v, { e with evaluatedValue := v, isEvaluated := true })
  else
    if e.operands.isEmpty then
      Except.ok (Tripartite.UNKNOWN,
        { e with evaluatedValue := Tripartite.UNKNOWN, isEvaluated := true })
    else
      let queues := convertToPostfixQueues e.operands e.operators
      (evaluatePostfixQueues queues.1 queues.2).map fun v =>
        (v, { e with evaluatedValue := v, isEvaluated := true })

/-! ## The fixed-point solver `InferenceEngine::deduceAll` -/

/-- The scope `switch` of PHASE 5 of `deduceAll`, acting on the target
proposition once the expression's result is known: returns the updated
proposition and whether a change was recorded.  Every firing branch goes
through the provenance-free `setTruthValue`. -/
def scopeUpdate (subjectProp : Proposition) (resultValue : Tripartite) :
    Proposition × Bool :=
  let currentValue := subjectProp.truth_value
  match subjectProp.proposition_scope with
  | Quantifier.UNIVERSAL_AFFIRMATIVE =>
    if currentValue ≠ resultValue ∧ resultValue = Tripartite.TRUE then
      (subjectProp.setTruthValue Tripartite.TRUE, true)
    else (subjectProp, false)
  | Quantifier.UNIVERSAL_NEGATIVE =>
    if currentValue ≠ resultValue ∧ resultValue = Tripartite.FALSE then
      (subjectProp.setTruthValue Tripartite.FALSE, true)
    else (subjectProp, false)
  | Quantifier.PARTICULAR_AFFIRMATIVE =>
    if resultValue = Tripartite.TRUE then
      (subjectProp.setTruthValue Tripartite.TRUE, true)
    else (subjectProp, false)
  | Quantifier.PARTICULAR_NEGATIVE =>
    if resultValue = Tripartite.FALSE ∧ currentValue ≠ Tripartite.TRUE then
      (subjectProp.setTruthValue Tripartite.FALSE, true)
    else (subjectProp, false)
  | Quantifier.NONE => (subjectProp, false)

/-- PHASE 1 of `deduceAll`: over each entry of the map, apply Modus Ponens
then Modus Tollens when the entry is tagged IMPLIES.  The iteration is
over the keys present at phase start (entries inserted by the rules have
relation NONE and would be skipped anyway). -/
def phase1 (props : KnowledgeBase) : KnowledgeBase × Bool :=
  (props.map Prod.fst).foldl
    (fun acc key =>
      match findProposition acc.1 key with
      | some prop =>
        if prop.relation = LogicalOperator.IMPLIES then
          let mp := applyModusPonens prop acc.1
          let mt := applyModusTollens prop mp.1
          (mt.1, acc.2 || mp.2 || mt.2)
        else acc
      | none => acc)
    (props, false)

/-- The inner double loop of PHASE 2 over the collected implications
(`i ≠ j`), threading the knowledge base. -/
def phase2Pairs (impls : List Proposition) (props : KnowledgeBase) :
    KnowledgeBase × Bool :=
  impls.enum.foldl
    (fun acc ia =>
      impls.enum.foldl
        (fun acc2 jb =>
          if ia.1 ≠ jb.1 then
            let r := applyHypotheticalSyllogism ia.2 jb.2 acc2.1
            (r.1, acc2.2 || r.2)
          else acc2)
        acc)
    (props, false)

/-- PHASE 2 of `deduceAll`: collect the IMPLIES propositions, then apply
Hypothetical Syllogism to every ordered pair of distinct ones. -/
def phase2 (props : KnowledgeBase) : KnowledgeBase × Bool :=
  phase2Pairs
    ((props.filter fun pr => pr.2.relation = LogicalOperator.IMPLIES).map Prod.snd)
    props

/-- PHASE 3 of `deduceAll`: Disjunctive Syllogism on every OR entry. -/
def phase3 (props : KnowledgeBase) : KnowledgeBase × Bool :=
  (props.map Prod.fst).foldl
    (fun acc key =>
      match findProposition acc.1 key with
      | some prop =>
        if prop.relation = LogicalOperator.OR then
          let r := applyDisjunctiveSyllogism prop acc.1
          (r.1, acc.2 || r.2)
        else acc
      | none => acc)
    (props, false)

/-- The `j = i + 1` double loop of PHASE 4 over the collected
disjunctions. -/
def phase4Pairs (disjs : List Proposition) (props : KnowledgeBase) :
    KnowledgeBase × Bool :=
  disjs.enum.foldl
    (fun acc ia =>
      disjs.enum.foldl
        (fun acc2 jb =>
          if ia.1 < jb.1 then
            let r := applyResolution ia.2 jb.2 acc2.1
            (r.1, acc2.2 || r.2)
          else acc2)
        acc)
    (props, false)

/-- PHASE 4 of `deduceAll`: Resolution on every unordered pair of OR
entries. -/
def phase4 (props : KnowledgeBase) : KnowledgeBase × Bool :=
  phase4Pairs
    ((props.filter fun pr => pr.2.relation = LogicalOperator.OR).map Prod.snd)
    props

/-- PHASE 5 of `deduceAll`: evaluate each expression (its cache mutation is
kept in the returned list), skip when the target is absent, otherwise run
the scope `switch` on the target entry.  An evaluation exception
propagates out of `deduceAll`. -/
def phase5 : List Expression → KnowledgeBase → List Expression → Bool →
    Except EvalError (KnowledgeBase × List Expression × Bool)
  | [], props, evaluated, changed => Except.ok (props, evaluated, changed)
  | e :: rest, props, evaluated, changed => do
    let r ← Expression.evaluate e
    let subject := r.2.prefixName
    match findProposition props subject with
    | none => phase5 rest props (evaluated ++ [r.2]) changed
    | some subjectProp =>
      let u := scopeUpdate subjectProp r.1
      phase5 rest (updateProp props subject (fun _ => u.1))
        (evaluated ++ [r.2]) (changed || u.2)

/-- One pass of the `do { ... } while (changesMade)` loop of
`InferenceEngine::deduceAll`: the five phases in order, reporting whether
any of them recorded a change. -/
def pass (props : KnowledgeBase) (exprs : List Expression) :
    Except EvalError (KnowledgeBase × List Expression × Bool) := do
  let p1 := phase1 props
  let p2 := phase2 p1.1
  let p3 := phase3 p2.1
  let p4 := phase4 p3.1
  let p5 ← phase5 exprs p4.1 [] false
  Except.ok (p5.1, p5.2.1, p1.2 || p2.2 || p3.2 || p4.2 || p5.2.2)

/-- Models `InferenceEngine::deduceAll`, with an explicit pass budget: `some`
state when a pass with zero changes is reached within `fuel` passes,
`none` when the budget runs out first.  The C++ loops unboundedly, so it
terminates exactly when some finite budget suffices. -/
def deduceAllFuel : Nat → KnowledgeBase → List Expression →
    Except EvalError (Option (KnowledgeBase × List Expression))
  | 0, _, _ => Except.ok none
  | fuel + 1, props, exprs => do
    let r ← pass props exprs
    if r.2.2 then deduceAllFuel fuel r.1 r.2.1
    else Except.ok (some (r.1, r.2.1))

/-- Holds when `deduceAll` reaches its fixed point (a pass with zero changes) on the
given knowledge base. -/
def TerminatesOn (props : KnowledgeBase) (exprs : List Expression) : Prop :=
  ∃ fuel result, deduceAllFuel fuel props exprs = Except.ok (some result)

/-! ## The inference tracer (`Ratiocinator::traceInference`) -/

/-- Models `struct InferenceStep` from Ratiocinator.h. -/
structure InferenceStep where
  proposition : String
  truthValue : Tripartite
  rule : String
  premises : List String
  depth : Nat
deriving DecidableEq

/-- Models `Ratiocinator::traceInferenceRecursive`.  The accumulated trace and the
visited set are threaded; the fuel is an embedding artifact bounding the
depth of found-and-unvisited recursion steps — along any call path each
such step visits a distinct key of the map, so the `props.length + 1`
budget supplied by `traceInference` is never exhausted. -/
def traceInferenceRecursive (props : KnowledgeBase) :
    Nat → String → List InferenceStep → List String → Nat →
    List InferenceStep × List String
  | 0, _, trace, visited, _ => (trace, visited)
  | fuel + 1, name, trace, visited, depth =>
    if name ∈ visited then (trace, visited)
    else
      let visited1 := name :: visited
      match findProposition props name with
      | none => (trace, visited1)
      | some prop =>
        match prop.provenance with
        | some prov =>
          let step : InferenceStep :=
            ⟨name, prop.truth_value, prov.ruleFired, prov.premises, depth⟩
          prov.premises.foldl
            (fun acc premise =>
              traceInferenceRecursive props fuel premise acc.1 acc.2 (depth + 1))
            (trace ++ [step], visited1)
        | none =>
          (trace ++ [⟨name, prop.truth_value, "Axiom", [], depth⟩], visited1)

/-- Models `Ratiocinator::traceInference`. -/
def traceInference (props : KnowledgeBase) (name : String) : List InferenceStep :=
  (traceInferenceRecursive props (props.length + 1) name [] [] 0).1

/-- Observational helper: the provenance stored for a name (none when the
entry is missing or was set without provenance). -/
def provenanceOf (props : KnowledgeBase) (name : String) : Option InferenceProvenance :=
  (findProposition props name).bind Proposition.provenance

/-- A token drawn from the data model's closed token alphabet: an operand,
or one of the structural operators AND, OR, NOT, IMPLIES, EQUIVALENT,
LPAREN, RPAREN.  (`LogicalOperator::NONE` is no expression token; it is
the "no relation" tag of propositions.) -/
def validToken (t : Token) : Bool :=
  match t with
  | Token.operand _ => true
  | Token.oper op => op ≠ LogicalOperator.NONE

/-- An operator stack entry that the token-stream loop can produce:
everything it pushes is a left parenthesis, NOT, or a non-NONE binary
operator — never RPAREN and, on valid streams, never NONE. -/
def stackOpOk (op : LogicalOperator) : Bool :=
  op ≠ LogicalOperator.NONE ∧ op ≠ LogicalOperator.RPAREN

/-- Counterexample knowledge base for the termination claim: one
proposition `s` with particular-affirmative scope. -/
def cexProps : KnowledgeBase :=
  [("s", { prefixName := "s",
           proposition_scope := Quantifier.PARTICULAR_AFFIRMATIVE,
           truth_value := Tripartite.TRUE })]

/-- Counterexample expression list: a single expression targeting `s`
whose lone operand token snapshots a TRUE proposition, so it evaluates to
TRUE on every pass. -/
def cexExprs : List Expression :=
  [{ prefixName := "s",
     tokens := [Token.operand { truth_value := Tripartite.TRUE }],
     useTokenStream := true }]

/-- The list `cexExprs` after its first evaluation (the cache is filled in). -/
def cexExprsEvaluated : List Expression :=
  [{ prefixName := "s",
     tokens := [Token.operand { truth_value := Tripartite.TRUE }],
     useTokenStream := true,
     isEvaluated := true,
     evaluatedValue := Tripartite.TRUE }]

/-! ## Claim theorems -/

/-- Claim C8: for all Tripartite inputs `a` and `b`, the EQUIVALENT
operator returns TRUE exactly when `IMPLIES(a,b)` and `IMPLIES(b,a)` are
both TRUE, and FALSE in every other case; in particular it never returns
UNKNOWN (and never fails), even when an input is UNKNOWN. -/
theorem claim_C8_equivalent_truth_table (a b : Tripartite) :
    (applyBinaryOperator a b LogicalOperator.EQUIVALENT = Except.ok Tripartite.TRUE ↔
      (timplies a b = Tripartite.TRUE ∧ timplies b a = Tripartite.TRUE)) ∧
    (applyBinaryOperator a b LogicalOperator.EQUIVALENT = Except.ok Tripartite.TRUE ∨
      applyBinaryOperator a b LogicalOperator.EQUIVALENT = Except.ok Tripartite.FALSE) := by
  cases a <;> cases b <;> simp [applyBinaryOperator, timplies]

/-- Claim C5: `setTruthValue(value, provenance)` appends a Conflict entry
exactly when the current value is definite and differs from the incoming
value; the appended record holds the old value and provenance against the
new ones, and the value and provenance are then overwritten
unconditionally.  The provenance-free `setTruthValue(value)` never touches
the conflict list. -/
theorem claim_C5_conflict_recording (p : Proposition) (v : Tripartite)
    (prov : InferenceProvenance) :
    (p.setTruthValueProv v prov).truth_value = v ∧
    (p.setTruthValueProv v prov).provenance = some prov ∧
    (p.truth_value ≠ Tripartite.UNKNOWN ∧ p.truth_value ≠ v →
      (p.setTruthValueProv v prov).conflicts =
        p.conflicts ++ [⟨p.truth_value, v, p.provenance.getD {}, prov⟩]) ∧
    (p.truth_value = Tripartite.UNKNOWN ∨ p.truth_value = v →
      (p.setTruthValueProv v prov).conflicts = p.conflicts) ∧
    (∀ w, (p.setTruthValue w).conflicts = p.conflicts) := by
  unfold Proposition.setTruthValueProv Proposition.setTruthValue
  by_cases h : p.truth_value ≠ Tripartite.UNKNOWN ∧ p.truth_value ≠ v
  · rw [if_pos h]
    refine ⟨rfl, rfl, fun _ => rfl, fun hc => ?_, fun _ => rfl⟩
    rcases hc with hc | hc
    · exact absurd hc h.1
    · exact absurd hc h.2
  · rw [if_neg h]
    exact ⟨rfl, rfl, fun hc => absurd hc h, fun _ => rfl, fun _ => rfl⟩

/-- A closed witness for claim C5: overwriting TRUE by FALSE records
exactly one conflict carrying the old value and provenance. -/
theorem claim_C5_conflict_recording_witness :
    ({ truth_value := Tripartite.TRUE :
        Proposition }.setTruthValueProv Tripartite.FALSE ⟨"ModusTollens", ["q"]⟩).conflicts =
      [⟨Tripartite.TRUE, Tripartite.FALSE, {}, ⟨"ModusTollens", ["q"]⟩⟩] ∧
    ({ truth_value := Tripartite.UNKNOWN :
        Proposition }.setTruthValueProv Tripartite.TRUE ⟨"ModusPonens", ["p"]⟩).conflicts = [] := by
  constructor
  · exact (claim_C5_conflict_recording { truth_value := Tripartite.TRUE }
      Tripartite.FALSE ⟨"ModusTollens", ["q"]⟩).2.2.1 (by constructor <;> decide)
  · exact (claim_C5_conflict_recording { truth_value := Tripartite.UNKNOWN }
      Tripartite.TRUE ⟨"ModusPonens", ["p"]⟩).2.2.2.1 (Or.inl rfl)

/-- Case analysis of the scope switch: it either leaves the target alone
or routes through the provenance-free setter with TRUE or FALSE. -/
theorem scopeUpdate_cases (p : Proposition) (r : Tripartite) :
    scopeUpdate p r = (p, false) ∨
    scopeUpdate p r = (p.setTruthValue Tripartite.TRUE, true) ∨
    scopeUpdate p r = (p.setTruthValue Tripartite.FALSE, true) := by
  unfold scopeUpdate
  cases p.proposition_scope <;> dsimp only <;> first
    | exact Or.inl rfl
    | (split
       · first
         | exact Or.inr (Or.inl rfl)
         | exact Or.inr (Or.inr rfl)
       · exact Or.inl rfl)

/-- Claim C10: every firing branch of the PHASE-5 scope switch sets the
target through the provenance-free setter: afterwards the provenance is
absent, the conflict list is untouched, and every field other than the
truth value is unchanged — even when a definite value is overwritten by a
different one. -/
theorem claim_C10_scope_update_frame (p : Proposition) (r : Tripartite)
    (h : (scopeUpdate p r).2 = true) :
    (scopeUpdate p r).1.provenance = none ∧
    (scopeUpdate p r).1.conflicts = p.conflicts ∧
    (scopeUpdate p r).1.prefixName = p.prefixName ∧
    (scopeUpdate p r).1.relation = p.relation ∧
    (scopeUpdate p r).1.antecedent = p.antecedent ∧
    (scopeUpdate p r).1.antecedentAssertion = p.antecedentAssertion ∧
    (scopeUpdate p r).1.subject = p.subject ∧
    (scopeUpdate p r).1.consequent = p.consequent ∧
    (scopeUpdate p r).1.consequentAssertion = p.consequentAssertion ∧
    (scopeUpdate p r).1.predicate = p.predicate ∧
    (scopeUpdate p r).1.proposition_scope = p.proposition_scope := by
  rcases scopeUpdate_cases p r with hc | hc | hc
  · rw [hc] at h
    cases h
  · rw [hc]
    exact ⟨rfl, rfl, rfl, rfl, rfl, rfl, rfl, rfl, rfl, rfl, rfl⟩
  · rw [hc]
    exact ⟨rfl, rfl, rfl, rfl, rfl, rfl, rfl, rfl, rfl, rfl, rfl⟩

/-- A closed witness for claim C10: a particular-affirmative update that
overwrites FALSE with TRUE clears the provenance of the target and leaves
its conflict list and scope unchanged. -/
theorem claim_C10_scope_update_frame_witness :
    ((scopeUpdate
        { truth_value := Tripartite.FALSE,
          proposition_scope := Quantifier.PARTICULAR_AFFIRMATIVE,
          provenance := some ⟨"ModusTollens", ["q"]⟩ } Tripartite.TRUE).1.provenance = none) ∧
    ((scopeUpdate
        { truth_value := Tripartite.FALSE,
          proposition_scope := Quantifier.PARTICULAR_AFFIRMATIVE,
          provenance := some ⟨"ModusTollens", ["q"]⟩ } Tripartite.TRUE).1.conflicts = []) := by
  have h := claim_C10_scope_update_frame
      { truth_value := Tripartite.FALSE,
        proposition_scope := Quantifier.PARTICULAR_AFFIRMATIVE,
        provenance := some ⟨"ModusTollens", ["q"]⟩ } Tripartite.TRUE (by decide)
  exact ⟨h.1, h.2.1⟩

/-- Claim C3: the PHASE-5 scope switch updates the target exactly as
described: universal-affirmative adopts TRUE exactly when the result is
TRUE and differs from the current value; universal-negative adopts FALSE
exactly when the result is FALSE and differs; particular-affirmative
adopts TRUE whenever the result is TRUE, even overriding a contrary
definite value; particular-negative adopts FALSE when the result is FALSE
unless the current value is already TRUE; scope NONE leaves the target
unchanged. -/
theorem claim_C3_scope_switch (p : Proposition) (r : Tripartite) :
    (p.proposition_scope = Quantifier.UNIVERSAL_AFFIRMATIVE →
      ((scopeUpdate p r).2 = true ↔ r = Tripartite.TRUE ∧ r ≠ p.truth_value) ∧
      (scopeUpdate p r).1.truth_value =
        (if r = Tripartite.TRUE ∧ r ≠ p.truth_value then Tripartite.TRUE
         else p.truth_value)) ∧
    (p.proposition_scope = Quantifier.UNIVERSAL_NEGATIVE →
      ((scopeUpdate p r).2 = true ↔ r = Tripartite.FALSE ∧ r ≠ p.truth_value) ∧
      (scopeUpdate p r).1.truth_value =
        (if r = Tripartite.FALSE ∧ r ≠ p.truth_value then Tripartite.FALSE
         else p.truth_value)) ∧
    (p.proposition_scope = Quantifier.PARTICULAR_AFFIRMATIVE →
      ((scopeUpdate p r).2 = true ↔ r = Tripartite.TRUE) ∧
      (scopeUpdate p r).1.truth_value =
        (if r = Tripartite.TRUE then Tripartite.TRUE else p.truth_value)) ∧
    (p.proposition_scope = Quantifier.PARTICULAR_NEGATIVE →
      ((scopeUpdate p r).2 = true ↔
        r = Tripartite.FALSE ∧ p.truth_value ≠ Tripartite.TRUE) ∧
      (scopeUpdate p r).1.truth_value =
        (if r = Tripartite.FALSE ∧ p.truth_value ≠ Tripartite.TRUE then Tripartite.FALSE
         else p.truth_value)) ∧
    (p.proposition_scope = Quantifier.NONE → scopeUpdate p r = (p, false)) := by
  unfold scopeUpdate
  refine ⟨fun hs => ?_, fun hs => ?_, fun hs => ?_, fun hs => ?_, fun hs => ?_⟩ <;>
    rw [hs] <;>
    cases hr : r <;> cases hv : p.truth_value <;>
      simp_all [Proposition.setTruthValue]

/-- A closed witness for claim C3: with a TRUE result, a
particular-affirmative target overrides its contrary FALSE value, while a
universal-affirmative target already holding TRUE is left alone. -/
theorem claim_C3_scope_switch_witness :
    (scopeUpdate
      { truth_value := Tripartite.FALSE,
        proposition_scope := Quantifier.PARTICULAR_AFFIRMATIVE }
      Tripartite.TRUE).1.truth_value = Tripartite.TRUE ∧
    (scopeUpdate
      { truth_value := Tripartite.TRUE,
        proposition_scope := Quantifier.UNIVERSAL_AFFIRMATIVE }
      Tripartite.TRUE).2 = false := by
  constructor
  · have h := (claim_C3_scope_switch
      { truth_value := Tripartite.FALSE,
        proposition_scope := Quantifier.PARTICULAR_AFFIRMATIVE }
      Tripartite.TRUE).2.2.1 rfl
    rw [h.2]
    decide
  · have h := (claim_C3_scope_switch
      { truth_value := Tripartite.TRUE,
        proposition_scope := Quantifier.UNIVERSAL_AFFIRMATIVE }
      Tripartite.TRUE).1 rfl
    rcases hb : (scopeUpdate
      { truth_value := Tripartite.TRUE,
        proposition_scope := Quantifier.UNIVERSAL_AFFIRMATIVE }
      Tripartite.TRUE).2 with _ | _
    · rfl
    · have := h.1.mp hb
      simp at this

/-! ### Knowledge-base lookup and update lemmas -/

theorem setTruthValueProv_truth (p : Proposition) (v : Tripartite)
    (prov : InferenceProvenance) : (p.setTruthValueProv v prov).truth_value = v := rfl

theorem setTruthValueProv_provenance (p : Proposition) (v : Tripartite)
    (prov : InferenceProvenance) :
    (p.setTruthValueProv v prov).provenance = some prov := rfl

theorem find_updateProp_self (props : KnowledgeBase) (name : String)
    (f : Proposition → Proposition) :
    findProposition (updateProp props name f) name =
      (findProposition props name).map f := by
  induction props with
  | nil => rfl
  | cons pr rest ih =>
    by_cases h : pr.1 = name
    · simp [updateProp, findProposition, h]
    · simp only [updateProp, if_neg h, findProposition, List.find?]
      rw [show (decide (pr.1 = name)) = false by simp [h]]
      exact ih

theorem find_updateProp_ne (props : KnowledgeBase) (name n : String)
    (f : Proposition → Proposition) (h : n ≠ name) :
    findProposition (updateProp props name f) n = findProposition props n := by
  induction props with
  | nil => rfl
  | cons pr rest ih =>
    by_cases hk : pr.1 = name
    · simp only [updateProp, if_pos hk, findProposition, List.find?]
      rw [show (decide (pr.1 = n)) = false by simp [hk, Ne.symm h]]
    · simp only [updateProp, if_neg hk, findProposition, List.find?]
      by_cases hn : pr.1 = n
      · simp [hn]
      · rw [show (decide (pr.1 = n)) = false by simp [hn]]
        exact ih

theorem find_append_single_self (props : KnowledgeBase) (name : String)
    (p : Proposition) (h : findProposition props name = none) :
    findProposition (props ++ [(name, p)]) name = some p := by
  induction props with
  | nil => simp [findProposition]
  | cons pr rest ih =>
    simp only [findProposition, List.find?, List.cons_append] at h ⊢
    by_cases hk : pr.1 = name
    · rw [show (decide (pr.1 = name)) = true by simp [hk]] at h
      cases h
    · rw [show (decide (pr.1 = name)) = false by simp [hk]] at h ⊢
      exact ih h

theorem find_append_single_ne (props : KnowledgeBase) (name n : String)
    (p : Proposition) (h : n ≠ name) :
    findProposition (props ++ [(name, p)]) n = findProposition props n := by
  induction props with
  | nil => simp [findProposition, Ne.symm h]
  | cons pr rest ih =>
    simp only [findProposition, List.find?, List.cons_append]
    by_cases hk : pr.1 = n
    · simp [hk]
    · rw [show (decide (pr.1 = n)) = false by simp [hk]]
      exact ih

theorem derivePropAt_find_self (props : KnowledgeBase) (name : String)
    (v : Tripartite) (prov : InferenceProvenance) :
    findProposition (derivePropAt props name v prov) name =
      some (((findProposition props name).getD {}).setTruthValueProv v prov) := by
  unfold derivePropAt
  cases h : findProposition props name with
  | some p => rw [find_updateProp_self, h]; rfl
  | none => rw [find_append_single_self props name _ h]; rfl

theorem derivePropAt_find_ne (props : KnowledgeBase) (name n : String)
    (v : Tripartite) (prov : InferenceProvenance) (h : n ≠ name) :
    findProposition (derivePropAt props name v prov) n = findProposition props n := by
  unfold derivePropAt
  cases hf : findProposition props name with
  | some p => exact find_updateProp_ne props name n _ h
  | none => exact find_append_single_ne props name n _ h

theorem truthValueOf_derive_self (props : KnowledgeBase) (name : String)
    (v : Tripartite) (prov : InferenceProvenance) :
    truthValueOf (derivePropAt props name v prov) name = v := by
  unfold truthValueOf
  rw [derivePropAt_find_self]
  rfl

theorem provenanceOf_derive_self (props : KnowledgeBase) (name : String)
    (v : Tripartite) (prov : InferenceProvenance) :
    provenanceOf (derivePropAt props name v prov) name = some prov := by
  unfold provenanceOf
  rw [derivePropAt_find_self]
  rfl

/-- Claim C2: for an IMPLIES proposition with antecedent `A` and
consequent `C`: when `A` is TRUE and `C` is not already TRUE, Modus Ponens
derives `C = TRUE` with rule "ModusPonens" and premises `[A, the
implication's own name]`; when `C` is FALSE and `A` is not already FALSE,
Modus Tollens derives `A = FALSE` with rule "ModusTollens" and premises
`[C, the implication's own name]`; in every other case each of the two
rules leaves the knowledge base completely unchanged. -/
theorem claim_C2_modus_ponens_tollens (props : KnowledgeBase) (impl : Proposition) :
    (truthValueOf props impl.antecedent = Tripartite.TRUE →
     truthValueOf props impl.consequent ≠ Tripartite.TRUE →
      (applyModusPonens impl props).2 = true ∧
      truthValueOf (applyModusPonens impl props).1 impl.consequent = Tripartite.TRUE ∧
      provenanceOf (applyModusPonens impl props).1 impl.consequent =
        some ⟨"ModusPonens", [impl.antecedent, impl.prefixName]⟩) ∧
    (¬(truthValueOf props impl.antecedent = Tripartite.TRUE ∧
       truthValueOf props impl.consequent ≠ Tripartite.TRUE) →
      applyModusPonens impl props = (props, false)) ∧
    (truthValueOf props impl.consequent = Tripartite.FALSE →
     truthValueOf props impl.antecedent ≠ Tripartite.FALSE →
      (applyModusTollens impl props).2 = true ∧
      truthValueOf (applyModusTollens impl props).1 impl.antecedent = Tripartite.FALSE ∧
      provenanceOf (applyModusTollens impl props).1 impl.antecedent =
        some ⟨"ModusTollens", [impl.consequent, impl.prefixName]⟩) ∧
    (¬(truthValueOf props impl.consequent = Tripartite.FALSE ∧
       truthValueOf props impl.antecedent ≠ Tripartite.FALSE) →
      applyModusTollens impl props = (props, false)) := by
  refine ⟨fun h1 h2 => ?_, fun h => ?_, fun h1 h2 => ?_, fun h => ?_⟩
  · unfold applyModusPonens
    rw [if_pos ⟨h1, h2⟩]
    exact ⟨rfl, truthValueOf_derive_self .., provenanceOf_derive_self ..⟩
  · unfold applyModusPonens
    rw [if_neg h]
  · unfold applyModusTollens
    rw [if_pos ⟨h1, h2⟩]
    exact ⟨rfl, truthValueOf_derive_self .., provenanceOf_derive_self ..⟩
  · unfold applyModusTollens
    rw [if_neg h]

/-- A closed witness for claim C2: on a knowledge base with `A = TRUE` and
no entry for `C`, Modus Ponens on the rule `A → C` named "r" fires and
derives `C = TRUE` with premises `["A", "r"]`, while Modus Tollens on the
same state changes nothing. -/
theorem claim_C2_modus_ponens_tollens_witness :
    (applyModusPonens
      { prefixName := "r", relation := LogicalOperator.IMPLIES,
        antecedent := "A", consequent := "C" }
      [("A", { prefixName := "A", truth_value := Tripartite.TRUE })]).2 = true ∧
    truthValueOf (applyModusPonens
      { prefixName := "r", relation := LogicalOperator.IMPLIES,
        antecedent := "A", consequent := "C" }
      [("A", { prefixName := "A", truth_value := Tripartite.TRUE })]).1 "C" =
      Tripartite.TRUE ∧
    provenanceOf (applyModusPonens
      { prefixName := "r", relation := LogicalOperator.IMPLIES,
        antecedent := "A", consequent := "C" }
      [("A", { prefixName := "A", truth_value := Tripartite.TRUE })]).1 "C" =
      some ⟨"ModusPonens", ["A", "r"]⟩ ∧
    applyModusTollens
      { prefixName := "r", relation := LogicalOperator.IMPLIES,
        antecedent := "A", consequent := "C" }
      [("A", { prefixName := "A", truth_value := Tripartite.TRUE })] =
      ([("A", { prefixName := "A", truth_value := Tripartite.TRUE })], false) := by
  have h := claim_C2_modus_ponens_tollens
    [("A", { prefixName := "A", truth_value := Tripartite.TRUE })]
    { prefixName := "r", relation := LogicalOperator.IMPLIES,
      antecedent := "A", consequent := "C" }
  obtain ⟨hfire, -, -, hskip⟩ := h
  obtain ⟨h1, h2, h3⟩ := hfire (by decide) (by decide)
  exact ⟨h1, h2, h3, hskip (by decide)⟩

/-- With an empty expression list a pass always succeeds (phases 1–4 are
pure and PHASE 5 has nothing to evaluate), and the expression list stays
empty. -/
theorem pass_nil_ok (props : KnowledgeBase) :
    ∃ p ch, pass props [] = Except.ok (p, [], ch) := ⟨_, _, rfl⟩

/-- With an empty expression list `deduceAll` never raises: every pass
budget yields an `ok` outcome. -/
theorem deduceAllFuel_nil_ok (fuel : Nat) (props : KnowledgeBase) :
    ∃ r, deduceAllFuel fuel props [] = Except.ok r := by
  induction fuel generalizing props with
  | zero => exact ⟨none, rfl⟩
  | succ n ih =>
    obtain ⟨p, ch, hp⟩ := pass_nil_ok props
    cases ch with
    | true =>
      obtain ⟨r, hr⟩ := ih p
      refine ⟨r, ?_⟩
      unfold deduceAllFuel
      rw [hp]
      exact hr
    | false =>
      refine ⟨some (p, []), ?_⟩
      unfold deduceAllFuel
      rw [hp]
      rfl

/-- Claim C4: lookups during `deduceAll` are missing-safe — reading a name
with no entry behaves as the value UNKNOWN, deriving a value for a name
with no entry auto-creates the entry (which then carries the derived value
and provenance), and the engine raises no error for missing data: with no
expressions to evaluate (the only error source, which is unrelated to
missing names) every pass budget of `deduceAll` returns `ok`. -/
theorem claim_C4_missing_safe (props : KnowledgeBase) (name : String)
    (v : Tripartite) (prov : InferenceProvenance) (fuel : Nat)
    (h : findProposition props name = none) :
    truthValueOf props name = Tripartite.UNKNOWN ∧
    findProposition (derivePropAt props name v prov) name =
      some (Proposition.setTruthValueProv {} v prov) ∧
    truthValueOf (derivePropAt props name v prov) name = v ∧
    (∃ r, deduceAllFuel fuel props [] = Except.ok r) := by
  refine ⟨?_, ?_, truthValueOf_derive_self .., deduceAllFuel_nil_ok fuel props⟩
  · unfold truthValueOf
    rw [h]
  · rw [derivePropAt_find_self, h]
    rfl

/-- A closed witness for claim C4: on a knowledge base that only holds
`A`, the missing name `B` reads as UNKNOWN, and deriving `B = TRUE`
creates its entry. -/
theorem claim_C4_missing_safe_witness :
    truthValueOf [("A", { prefixName := "A" })] "B" = Tripartite.UNKNOWN ∧
    truthValueOf
      (derivePropAt [("A", { prefixName := "A" })] "B" Tripartite.TRUE
        ⟨"ModusPonens", ["A", "r"]⟩) "B" = Tripartite.TRUE := by
  have h := claim_C4_missing_safe [("A", { prefixName := "A" })] "B"
    Tripartite.TRUE ⟨"ModusPonens", ["A", "r"]⟩ 1 (by decide)
  exact ⟨h.1, h.2.2.1⟩

/-- Claim C9: `trace` on a name that exists but has no provenance (an
axiom) returns exactly one step with rule "Axiom", depth 0 and empty
premises; `trace` on a name not present in the knowledge base returns the
empty list. -/
theorem claim_C9_trace_axiom_missing (props : KnowledgeBase) (name : String) :
    (findProposition props name = none → traceInference props name = []) ∧
    (∀ p, findProposition props name = some p → p.provenance = none →
      traceInference props name = [⟨name, p.truth_value, "Axiom", [], 0⟩]) := by
  constructor
  · intro h
    simp [traceInference, traceInferenceRecursive, h]
  · intro p hp hprov
    simp [traceInference, traceInferenceRecursive, hp, hprov]

/-- A closed witness for claim C9: tracing the axiom `A` yields the single
Axiom step; tracing the absent name `B` yields nothing. -/
theorem claim_C9_trace_axiom_missing_witness :
    traceInference [("A", { prefixName := "A", truth_value := Tripartite.TRUE })] "A" =
      [⟨"A", Tripartite.TRUE, "Axiom", [], 0⟩] ∧
    traceInference [("A", { prefixName := "A", truth_value := Tripartite.TRUE })] "B" = [] := by
  constructor
  · exact (claim_C9_trace_axiom_missing
      [("A", { prefixName := "A", truth_value := Tripartite.TRUE })] "A").2
      { prefixName := "A", truth_value := Tripartite.TRUE } (by decide) rfl
  · exact (claim_C9_trace_axiom_missing
      [("A", { prefixName := "A", truth_value := Tripartite.TRUE })] "B").1 (by decide)

/-- An `evaluate` that returns `ok` leaves the expression with its cache
filled: `isEvaluated` is set and `evaluatedValue` holds the result. -/
theorem evaluate_sets_cache (e : Expression) (v : Tripartite) (e' : Expression)
    (h : Expression.evaluate e = Except.ok (v, e')) :
    e'.isEvaluated = true ∧ e'.evaluatedValue = v := by
  unfold Expression.evaluate at h
  by_cases h1 : e.isEvaluated
  · rw [if_pos h1, Except.ok.injEq, Prod.mk.injEq] at h
    exact ⟨h.2 ▸ h1, by rw [← h.2, h.1]⟩
  · rw [if_neg h1] at h
    by_cases h2 : e.useTokenStream
    · rw [if_pos h2] at h
      by_cases h3 : e.tokens.isEmpty
      · rw [if_pos h3, Except.ok.injEq, Prod.mk.injEq] at h
        rw [← h.2, h.1]
        exact ⟨rfl, rfl⟩
      · rw [if_neg h3] at h
        cases hts : evaluateTokenStream e.tokens with
        | ok u =>
          rw [hts] at h
          simp only [Except.map, Except.ok.injEq, Prod.mk.injEq] at h
          rw [← h.2, h.1]
          exact ⟨rfl, rfl⟩
        | error err =>
          rw [hts] at h
          cases h
    · rw [if_neg h2] at h
      by_cases h3 : e.operands.isEmpty
      · rw [if_pos h3, Except.ok.injEq, Prod.mk.injEq] at h
        rw [← h.2, h.1]
        exact ⟨rfl, rfl⟩
      · rw [if_neg h3] at h
        cases hts : evaluatePostfixQueues
            (convertToPostfixQueues e.operands e.operators).1
            (convertToPostfixQueues e.operands e.operators).2 with
        | ok u =>
          simp only [hts, Except.map, Except.ok.injEq, Prod.mk.injEq] at h
          rw [← h.2, h.1]
          exact ⟨rfl, rfl⟩
        | error err =>
          simp only [hts, Except.map] at h
          cases h

/-- Claim C7: operand values are copied into the token at build time
(`addToken` appends a by-value snapshot of the proposition); an expression
built from a proposition evaluates to the proposition's value as of the
build, so mutating the source afterwards and re-evaluating without
rebuilding yields the stale snapshot (only rebuilding sees the new
value); and repeated `evaluate` calls on the same unmutated expression
return the same result (the second call replays the cache). -/
theorem claim_C7_snapshot_and_cache (e : Expression) (p : Proposition)
    (w v : Tripartite) (e' : Expression) :
    ((e.addTokenProp p).tokens = e.tokens ++ [Token.operand p]) ∧
    ((Expression.evaluate (Expression.addTokenProp {} p)).map Prod.fst =
      Except.ok p.truth_value) ∧
    ((Expression.evaluate (Expression.addTokenProp {} (p.setTruthValue w))).map Prod.fst =
      Except.ok w) ∧
    (Expression.evaluate e = Except.ok (v, e') →
      Expression.evaluate e' = Except.ok (v, e')) := by
  refine ⟨rfl, rfl, rfl, fun h => ?_⟩
  obtain ⟨hc1, hc2⟩ := evaluate_sets_cache e v e' h
  unfold Expression.evaluate
  rw [if_pos hc1, hc2]

/-- A closed witness for claim C7: the expression built from a TRUE
proposition still evaluates to TRUE after the source is mutated to FALSE
(only rebuilding sees FALSE), and a second `evaluate` on the cached
expression reproduces the first result. -/
theorem claim_C7_snapshot_and_cache_witness :
    ((Expression.evaluate
        (Expression.addTokenProp {} { truth_value := Tripartite.TRUE })).map Prod.fst =
      Except.ok Tripartite.TRUE) ∧
    ((Expression.evaluate
        (Expression.addTokenProp {}
          (Proposition.setTruthValue { truth_value := Tripartite.TRUE }
            Tripartite.FALSE))).map Prod.fst = Except.ok Tripartite.FALSE) ∧
    Expression.evaluate
        { tokens := [Token.operand { truth_value := Tripartite.TRUE }],
          useTokenStream := true, isEvaluated := true,
          evaluatedValue := Tripartite.TRUE } =
      Except.ok (Tripartite.TRUE,
        { tokens := [Token.operand { truth_value := Tripartite.TRUE }],
          useTokenStream := true, isEvaluated := true,
          evaluatedValue := Tripartite.TRUE }) := by
  have h := claim_C7_snapshot_and_cache
    { tokens := [Token.operand { truth_value := Tripartite.TRUE }],
      useTokenStream := true }
    { truth_value := Tripartite.TRUE } Tripartite.FALSE Tripartite.TRUE
    { tokens := [Token.operand { truth_value := Tripartite.TRUE }],
      useTokenStream := true, isEvaluated := true,
      evaluatedValue := Tripartite.TRUE }
  exact ⟨h.2.1, h.2.2.1, h.2.2.2 rfl⟩

/-! ### Error classification of the token-stream evaluator (claim C6) -/

/-- Applying one stacked operator that is neither NONE nor a parenthesis
either runs out of operands or succeeds — it never reports an invalid
operator. -/
theorem applyOp1_cases (op : LogicalOperator) (vals : List Tripartite)
    (h1 : op ≠ LogicalOperator.NONE) (h2 : op ≠ LogicalOperator.LPAREN)
    (h3 : op ≠ LogicalOperator.RPAREN) :
    applyOp1 op vals = Except.error EvalError.insufficientOperands ∨
    ∃ vals', applyOp1 op vals = Except.ok vals' := by
  cases op <;> first
    | exact absurd rfl h1
    | exact absurd rfl h2
    | exact absurd rfl h3
    | (rcases vals with _ | ⟨a, _ | ⟨b, vs⟩⟩ <;>
        simp [applyOp1, isUnaryOperator, applyUnaryOperator, applyBinaryOperator,
          Except.map])

theorem applyPendingUnary_ctl (ops : List LogicalOperator) (vals : List Tripartite)
    (hok : ∀ op ∈ ops, stackOpOk op = true) :
    applyPendingUnary ops vals ≠ Except.error EvalError.invalidOperator ∧
    (∀ ops' vals', applyPendingUnary ops vals = Except.ok (ops', vals') →
      ∀ op ∈ ops', stackOpOk op = true) := by
  induction ops generalizing vals with
  | nil =>
    refine ⟨by simp [applyPendingUnary], fun ops' vals' h => ?_⟩
    simp only [applyPendingUnary, Except.ok.injEq, Prod.mk.injEq] at h
    rw [← h.1]
    intro op hop
    cases hop
  | cons op rest ih =>
    by_cases hu : isUnaryOperator op = true
    · have hop : op = LogicalOperator.NOT := by
        simpa [isUnaryOperator] using hu
      subst hop
      rcases vals with _ | ⟨v, vs⟩
      · have step : applyPendingUnary (LogicalOperator.NOT :: rest) [] =
            Except.error EvalError.insufficientOperands := rfl
        rw [step]
        exact ⟨by simp, fun ops' vals' h => by cases h⟩
      · have step : applyPendingUnary (LogicalOperator.NOT :: rest) (v :: vs) =
            applyPendingUnary rest (tNot v :: vs) := rfl
        rw [step]
        exact ih (tNot v :: vs) (fun o ho => hok o (List.mem_cons_of_mem _ ho))
    · have step : applyPendingUnary (op :: rest) vals = Except.ok (op :: rest, vals) := by
        simp [applyPendingUnary, hu]
      rw [step]
      refine ⟨by simp, fun ops' vals' h => ?_⟩
      simp only [Except.ok.injEq, Prod.mk.injEq] at h
      rw [← h.1]
      exact hok

theorem popUntilLParen_ctl (ops : List LogicalOperator) (vals : List Tripartite)
    (hok : ∀ op ∈ ops, stackOpOk op = true) :
    popUntilLParen ops vals ≠ Except.error EvalError.invalidOperator ∧
    (∀ ops' vals', popUntilLParen ops vals = Except.ok (ops', vals') →
      ∀ op ∈ ops', stackOpOk op = true) := by
  induction ops generalizing vals with
  | nil =>
    refine ⟨by simp [popUntilLParen], fun ops' vals' h => ?_⟩
    simp only [popUntilLParen, Except.ok.injEq, Prod.mk.injEq] at h
    rw [← h.1]
    intro op hop
    cases hop
  | cons op rest ih =>
    have hops : stackOpOk op = true := hok op (List.mem_cons_self _ _)
    have hrest : ∀ o ∈ rest, stackOpOk o = true :=
      fun o ho => hok o (List.mem_cons_of_mem _ ho)
    by_cases hl : isLeftParen op = true
    · have step : popUntilLParen (op :: rest) vals = Except.ok (op :: rest, vals) := by
        simp [popUntilLParen, hl]
      rw [step]
      refine ⟨by simp, fun ops' vals' h => ?_⟩
      simp only [Except.ok.injEq, Prod.mk.injEq] at h
      rw [← h.1]
      exact hok
    · have hno : op ≠ LogicalOperator.NONE ∧ op ≠ LogicalOperator.RPAREN := by
        simpa [stackOpOk, decide_eq_true_eq] using hops
      have hlp : op ≠ LogicalOperator.LPAREN := by
        simpa [isLeftParen] using hl
      have step : popUntilLParen (op :: rest) vals =
          Except.bind (applyOp1 op vals) (fun vals' => popUntilLParen rest vals') := by
        simp [popUntilLParen, hl]
        rfl
      rcases applyOp1_cases op vals hno.1 hlp hno.2 with ha | ⟨vals', ha⟩
      · rw [step, ha]
        exact ⟨by simp [Except.bind], fun ops' vals' h => by simp [Except.bind] at h⟩
      · rw [step, ha]
        exact ih vals' hrest

theorem popWhileHigherPrec_ctl (cur : LogicalOperator) (ops : List LogicalOperator)
    (vals : List Tripartite) (hok : ∀ op ∈ ops, stackOpOk op = true) :
    popWhileHigherPrec cur ops vals ≠ Except.error EvalError.invalidOperator ∧
    (∀ ops' vals', popWhileHigherPrec cur ops vals = Except.ok (ops', vals') →
      ∀ op ∈ ops', stackOpOk op = true) := by
  induction ops generalizing vals with
  | nil =>
    refine ⟨by simp [popWhileHigherPrec], fun ops' vals' h => ?_⟩
    simp only [popWhileHigherPrec, Except.ok.injEq, Prod.mk.injEq] at h
    rw [← h.1]
    intro op hop
    cases hop
  | cons op rest ih =>
    have hops : stackOpOk op = true := hok op (List.mem_cons_self _ _)
    have hrest : ∀ o ∈ rest, stackOpOk o = true :=
      fun o ho => hok o (List.mem_cons_of_mem _ ho)
    by_cases hc : ¬isLeftParen op = true ∧ ¬isUnaryOperator op = true ∧
        precedence cur ≤ precedence op
    · have hno : op ≠ LogicalOperator.NONE ∧ op ≠ LogicalOperator.RPAREN := by
        simpa [stackOpOk, decide_eq_true_eq] using hops
      have hlp : op ≠ LogicalOperator.LPAREN := by
        simpa [isLeftParen] using hc.1
      have step : popWhileHigherPrec cur (op :: rest) vals =
          Except.bind (applyOp1 op vals) (fun vals' => popWhileHigherPrec cur rest vals') := by
        simp [popWhileHigherPrec, hc]
        rfl
      rcases applyOp1_cases op vals hno.1 hlp hno.2 with ha | ⟨vals', ha⟩
      · rw [step, ha]
        exact ⟨by simp [Except.bind], fun ops' vals' h => by simp [Except.bind] at h⟩
      · rw [step, ha]
        exact ih vals' hrest
    · have step : popWhileHigherPrec cur (op :: rest) vals =
          Except.ok (op :: rest, vals) := by
        simp only [popWhileHigherPrec]
        rw [if_neg hc]
      rw [step]
      refine ⟨by simp, fun ops' vals' h => ?_⟩
      simp only [Except.ok.injEq, Prod.mk.injEq] at h
      rw [← h.1]
      exact hok

theorem flushRemaining_ctl (ops : List LogicalOperator) (vals : List Tripartite)
    (hok : ∀ op ∈ ops, stackOpOk op = true) :
    flushRemaining ops vals ≠ Except.error EvalError.invalidOperator := by
  induction ops generalizing vals with
  | nil => simp [flushRemaining]
  | cons op rest ih =>
    have hops : stackOpOk op = true := hok op (List.mem_cons_self _ _)
    have hrest : ∀ o ∈ rest, stackOpOk o = true :=
      fun o ho => hok o (List.mem_cons_of_mem _ ho)
    by_cases hc : ¬isLeftParen op = true ∧ ¬isRightParen op = true
    · have hno : op ≠ LogicalOperator.NONE ∧ op ≠ LogicalOperator.RPAREN := by
        simpa [stackOpOk, decide_eq_true_eq] using hops
      have hlp : op ≠ LogicalOperator.LPAREN := by
        simpa [isLeftParen] using hc.1
      have step : flushRemaining (op :: rest) vals =
          Except.bind (applyOp1 op vals) (fun vals' => flushRemaining rest vals') := by
        simp [flushRemaining, hc]
        rfl
      rcases applyOp1_cases op vals hno.1 hlp hno.2 with ha | ⟨vals', ha⟩
      · rw [step, ha]
        simp [Except.bind]
      · rw [step, ha]
        exact ih vals' hrest
    · have step : flushRemaining (op :: rest) vals = flushRemaining rest vals := by
        simp only [flushRemaining]
        rw [if_neg hc]
      rw [step]
      exact ih vals hrest

/-- The main loop never reports an invalid operator when the stream is
drawn from the data model's token alphabet and the operator stack holds
only operators the loop itself can push. -/
theorem evalTokensGo_no_invalid (ts : List Token) (ops : List LogicalOperator)
    (vals : List Tripartite) (hts : ∀ t ∈ ts, validToken t = true)
    (hok : ∀ op ∈ ops, stackOpOk op = true) :
    evalTokensGo ts ops vals ≠ Except.error EvalError.invalidOperator := by
  induction ts generalizing ops vals with
  | nil =>
    have step : evalTokensGo [] ops vals =
        Except.bind (flushRemaining ops vals) (fun v =>
          match v with
          | [v] => Except.ok v
          | [] => Except.ok Tripartite.UNKNOWN
          | _ => Except.error EvalError.unbalanced) := rfl
    rw [step]
    cases hf : flushRemaining ops vals with
    | ok v =>
      rcases v with _ | ⟨a, _ | ⟨b, rest⟩⟩ <;> simp [Except.bind]
    | error err =>
      have := flushRemaining_ctl ops vals hok
      rw [hf] at this
      simp only [Except.bind]
      intro hcontra
      cases hcontra
      exact this rfl
  | cons t rest ih =>
    have htr : ∀ t ∈ rest, validToken t = true :=
      fun t ht => hts t (List.mem_cons_of_mem _ ht)
    cases t with
    | operand p =>
      have step : evalTokensGo (Token.operand p :: rest) ops vals =
          Except.bind (applyPendingUnary ops (p.truth_value :: vals))
            (fun st => evalTokensGo rest st.1 st.2) := rfl
      rw [step]
      cases hap : applyPendingUnary ops (p.truth_value :: vals) with
      | ok st =>
        simp only [Except.bind]
        exact ih st.1 st.2 htr
          ((applyPendingUnary_ctl ops (p.truth_value :: vals) hok).2 st.1 st.2
            (by rw [hap]))
      | error err =>
        have := (applyPendingUnary_ctl ops (p.truth_value :: vals) hok).1
        rw [hap] at this
        simp only [Except.bind]
        intro hcontra
        cases hcontra
        exact this rfl
    | oper op =>
      have hvalid : op ≠ LogicalOperator.NONE := by
        have := hts (Token.oper op) (List.mem_cons_self _ _)
        simpa [validToken, decide_eq_true_eq] using this
      by_cases hl : isLeftParen op = true
      · have step : evalTokensGo (Token.oper op :: rest) ops vals =
            evalTokensGo rest (op :: ops) vals := by
          simp [evalTokensGo, hl]
        rw [step]
        have hlop : op = LogicalOperator.LPAREN := by simpa [isLeftParen] using hl
        refine ih (op :: ops) vals htr ?_
        intro o ho
        rcases List.mem_cons.mp ho with rfl | ho
        · rw [hlop]
          rfl
        · exact hok o ho
      · by_cases hr : isRightParen op = true
        · have step : evalTokensGo (Token.oper op :: rest) ops vals =
              Except.bind (popUntilLParen ops vals) (fun st =>
                Except.bind (applyPendingUnary (dropLParenTop st.1) st.2)
                  (fun st2 => evalTokensGo rest st2.1 st2.2)) := by
            simp [evalTokensGo, hl, hr]
            rfl
          rw [step]
          cases hp : popUntilLParen ops vals with
          | ok st =>
            simp only [Except.bind]
            have hst : ∀ o ∈ st.1, stackOpOk o = true :=
              (popUntilLParen_ctl ops vals hok).2 st.1 st.2 (by rw [hp])
            have hops1ok : ∀ o ∈ dropLParenTop st.1, stackOpOk o = true := by
              rcases hs1 : st.1 with _ | ⟨top, below⟩
              · intro o ho
                simp [dropLParenTop] at ho
              · rw [hs1] at hst
                by_cases htop : isLeftParen top = true
                · rw [show dropLParenTop (top :: below) = below by
                    simp [dropLParenTop, htop]]
                  exact fun o ho => hst o (List.mem_cons_of_mem _ ho)
                · rw [show dropLParenTop (top :: below) = top :: below by
                    simp [dropLParenTop, htop]]
                  exact hst
            cases hap : applyPendingUnary (dropLParenTop st.1) st.2 with
            | ok st2 =>
              simp only [Except.bind]
              exact ih st2.1 st2.2 htr
                ((applyPendingUnary_ctl (dropLParenTop st.1) st.2 hops1ok).2 st2.1 st2.2
                  (by rw [hap]))
            | error err =>
              have := (applyPendingUnary_ctl (dropLParenTop st.1) st.2 hops1ok).1
              rw [hap] at this
              simp only [Except.bind]
              intro hcontra
              cases hcontra
              exact this rfl
          | error err =>
            have := (popUntilLParen_ctl ops vals hok).1
            rw [hp] at this
            simp only [Except.bind]
            intro hcontra
            cases hcontra
            exact this rfl
        · by_cases hu : isUnaryOperator op = true
          · have step : evalTokensGo (Token.oper op :: rest) ops vals =
                evalTokensGo rest (op :: ops) vals := by
              simp [evalTokensGo, hl, hr, hu]
            rw [step]
            have hnop : op = LogicalOperator.NOT := by simpa [isUnaryOperator] using hu
            refine ih (op :: ops) vals htr ?_
            intro o ho
            rcases List.mem_cons.mp ho with rfl | ho
            · rw [hnop]
              rfl
            · exact hok o ho
          · have step : evalTokensGo (Token.oper op :: rest) ops vals =
                Except.bind (popWhileHigherPrec op ops vals) (fun st =>
                  evalTokensGo rest (op :: st.1) st.2) := by
              simp [evalTokensGo, hl, hr, hu]
              rfl
            rw [step]
            cases hpw : popWhileHigherPrec op ops vals with
            | ok st =>
              simp only [Except.bind]
              refine ih (op :: st.1) st.2 htr ?_
              intro o ho
              rcases List.mem_cons.mp ho with rfl | ho
              · simp [stackOpOk, hvalid, show o ≠ LogicalOperator.RPAREN by
                  simpa [isRightParen] using hr]
              · exact (popWhileHigherPrec_ctl op ops vals hok).2 st.1 st.2
                  (by rw [hpw]) o ho
            | error err =>
              have := (popWhileHigherPrec_ctl op ops vals hok).1
              rw [hpw] at this
              simp only [Except.bind]
              intro hcontra
              cases hcontra
              exact this rfl

/-- Claim C6: evaluating an empty token stream returns UNKNOWN without
error; a malformed stream fails with the insufficient-operands error (a
binary operator reaching fewer than two stacked operands) or the
unbalanced-expression error (more than one value left at the end); and on
streams drawn from the data model's token alphabet these are the only
failure conditions — the invalid-operator exception is unreachable. -/
theorem claim_C6_evaluator_errors (e : Expression) (ts : List Token)
    (p q : Proposition) :
    (e.useTokenStream = true → e.isEvaluated = false → e.tokens = [] →
      (Expression.evaluate e).map Prod.fst = Except.ok Tripartite.UNKNOWN) ∧
    ((∀ t ∈ ts, validToken t = true) →
      evaluateTokenStream ts ≠ Except.error EvalError.invalidOperator) ∧
    (evaluateTokenStream [Token.operand p, Token.oper LogicalOperator.AND] =
      Except.error EvalError.insufficientOperands) ∧
    (evaluateTokenStream [Token.operand p, Token.operand q] =
      Except.error EvalError.unbalanced) := by
  refine ⟨fun h1 h2 h3 => ?_, fun hts => ?_, rfl, rfl⟩
  · unfold Expression.evaluate
    rw [if_neg (by simp [h2]), if_pos h1, if_pos (by simp [h3])]
    rfl
  · exact evalTokensGo_no_invalid ts [] [] hts (fun op hop => absurd hop (by simp))

/-- A closed witness for claim C6: the empty stream evaluates to UNKNOWN,
a well-formed stream produces no invalid-operator error, and the two
malformed shapes produce the two documented errors. -/
theorem claim_C6_evaluator_errors_witness :
    ((Expression.evaluate { useTokenStream := true }).map Prod.fst =
      Except.ok Tripartite.UNKNOWN) ∧
    (evaluateTokenStream
        [Token.operand { truth_value := Tripartite.TRUE },
         Token.oper LogicalOperator.AND,
         Token.operand { truth_value := Tripartite.UNKNOWN }] ≠
      Except.error EvalError.invalidOperator) ∧
    (evaluateTokenStream
        [Token.operand { truth_value := Tripartite.TRUE },
         Token.oper LogicalOperator.AND] =
      Except.error EvalError.insufficientOperands) := by
  have h := claim_C6_evaluator_errors { useTokenStream := true }
    [Token.operand { truth_value := Tripartite.TRUE },
     Token.oper LogicalOperator.AND,
     Token.operand { truth_value := Tripartite.UNKNOWN }]
    { truth_value := Tripartite.TRUE } { truth_value := Tripartite.UNKNOWN }
  exact ⟨h.1 rfl rfl rfl, h.2.1 (by decide), h.2.2.1⟩

/-! ### Termination of `deduceAll` (claim C1) -/

theorem foldl_fixed_of_step {α β : Type} (f : β → α → β) (l : List α) (b : β)
    (h : ∀ a, f b a = b) : l.foldl f b = b := by
  induction l with
  | nil => rfl
  | cons a rest ih =>
    rw [List.foldl_cons, h a]
    exact ih

theorem findProposition_mem (props : KnowledgeBase) (k : String) (p : Proposition)
    (h : findProposition props k = some p) : ∃ pr ∈ props, pr.2 = p := by
  unfold findProposition at h
  cases hf : List.find? (fun pr => pr.1 = k) props with
  | none => rw [hf] at h; cases h
  | some pr =>
    rw [hf] at h
    refine ⟨pr, List.mem_of_find?_eq_some hf, ?_⟩
    cases h
    rfl

theorem phase1_noop (props : KnowledgeBase)
    (h : ∀ pr ∈ props, pr.2.relation ≠ LogicalOperator.IMPLIES) :
    phase1 props = (props, false) := by
  unfold phase1
  refine foldl_fixed_of_step _ _ _ (fun key => ?_)
  cases hf : findProposition props key with
  | none => rfl
  | some prop =>
    obtain ⟨pr, hmem, hpr⟩ := findProposition_mem props key prop hf
    have : prop.relation ≠ LogicalOperator.IMPLIES := hpr ▸ h pr hmem
    simp only [hf]
    rw [if_neg this]

theorem phase3_noop (props : KnowledgeBase)
    (h : ∀ pr ∈ props, pr.2.relation ≠ LogicalOperator.OR) :
    phase3 props = (props, false) := by
  unfold phase3
  refine foldl_fixed_of_step _ _ _ (fun key => ?_)
  cases hf : findProposition props key with
  | none => rfl
  | some prop =>
    obtain ⟨pr, hmem, hpr⟩ := findProposition_mem props key prop hf
    have : prop.relation ≠ LogicalOperator.OR := hpr ▸ h pr hmem
    simp only [hf]
    rw [if_neg this]

theorem phase2_noop (props : KnowledgeBase)
    (h : ∀ pr ∈ props, pr.2.relation ≠ LogicalOperator.IMPLIES) :
    phase2 props = (props, false) := by
  unfold phase2
  have hfilter : props.filter
      (fun pr => pr.2.relation = LogicalOperator.IMPLIES) = [] := by
    rw [List.filter_eq_nil_iff]
    intro pr hpr
    simpa using h pr hpr
  rw [hfilter]
  rfl

theorem phase4_noop (props : KnowledgeBase)
    (h : ∀ pr ∈ props, pr.2.relation ≠ LogicalOperator.OR) :
    phase4 props = (props, false) := by
  unfold phase4
  have hfilter : props.filter
      (fun pr => pr.2.relation = LogicalOperator.OR) = [] := by
    rw [List.filter_eq_nil_iff]
    intro pr hpr
    simpa using h pr hpr
  rw [hfilter]
  rfl

/-- The first pass of the counterexample: all phases but PHASE 5 are
no-ops, the expression evaluates to TRUE and is cached, and the
particular-affirmative branch re-asserts TRUE on `s` and reports a
change. -/
theorem pass_cex_first :
    pass cexProps cexExprs = Except.ok (cexProps, cexExprsEvaluated, true) := rfl

/-- Every later pass of the counterexample replays the cached TRUE result
and again reports a change, never altering the state. -/
theorem pass_cex_steady :
    pass cexProps cexExprsEvaluated = Except.ok (cexProps, cexExprsEvaluated, true) := rfl

theorem deduceAllFuel_cex_steady (fuel : Nat) :
    deduceAllFuel fuel cexProps cexExprsEvaluated = Except.ok none := by
  induction fuel with
  | zero => rfl
  | succ n ih =>
    simp only [deduceAllFuel, pass_cex_steady]
    exact ih

/-- The counterexample to claim C1: on the knowledge base holding the
particular-affirmative proposition `s` and one TRUE-valued expression
targeting `s`, no pass budget ever reaches a pass with zero changes —
`deduceAll` runs forever. -/
theorem claim_C1_counterexample : ¬ TerminatesOn cexProps cexExprs := by
  rintro ⟨fuel, result, hr⟩
  cases fuel with
  | zero => cases hr
  | succ n =>
    have hstep : deduceAllFuel (n + 1) cexProps cexExprs =
        deduceAllFuel n cexProps cexExprsEvaluated := by
      simp only [deduceAllFuel, pass_cex_first]
      rfl
    rw [hstep, deduceAllFuel_cex_steady] at hr
    cases hr

/-- Claim C1 (amended): `deduceAll` runs passes until a pass makes zero
changes, but such a pass is not always reached; it is reached — already by
the first pass — whenever the knowledge base holds no IMPLIES and no OR
propositions and the expression list is empty, and then the state is
returned unchanged. -/
theorem claim_C1_amended_termination (props : KnowledgeBase)
    (h : ∀ pr ∈ props, pr.2.relation ≠ LogicalOperator.IMPLIES ∧
      pr.2.relation ≠ LogicalOperator.OR) :
    deduceAllFuel 1 props [] = Except.ok (some (props, [])) ∧
    TerminatesOn props [] := by
  have hpass : pass props [] = Except.ok (props, [], false) := by
    unfold pass
    rw [phase1_noop props (fun pr hpr => (h pr hpr).1)]
    show Except.bind (phase5 [] (phase4 (phase3 (phase2 props).1).1).1 [] false) _ = _
    rw [phase2_noop props (fun pr hpr => (h pr hpr).1)]
    show Except.bind (phase5 [] (phase4 (phase3 props).1).1 [] false) _ = _
    rw [phase3_noop props (fun pr hpr => (h pr hpr).2)]
    show Except.bind (phase5 [] (phase4 props).1 [] false) _ = _
    rw [phase4_noop props (fun pr hpr => (h pr hpr).2)]
    rfl
  have hone : deduceAllFuel 1 props [] = Except.ok (some (props, [])) := by
    simp only [deduceAllFuel, hpass]
    rfl
  exact ⟨hone, 1, (props, []), hone⟩

/-- A closed witness for the amended claim C1: a knowledge base with one
relation-free proposition and no expressions reaches the fixed point in
one pass. -/
theorem claim_C1_amended_termination_witness :
    deduceAllFuel 1 [("A", { prefixName := "A", truth_value := Tripartite.TRUE })] [] =
      Except.ok (some ([("A", { prefixName := "A", truth_value := Tripartite.TRUE })], [])) := by
  exact (claim_C1_amended_termination
    [("A", { prefixName := "A", truth_value := Tripartite.TRUE })]
    (by decide)).1

end LogosLab
